import Mathlib

/-!
Verification development for the node-network-tab repository: a shallow
embedding of the HTTP interception engine (src/interceptor.ts), the request
log store (src/store.ts), and the IPC broadcast framing (src/ipc.ts),
together with theorems settling the frozen claims about them.

Machine integers stay abstract as `Int` (JS timestamps and sizes are exact
integers well below 2^53, so no overflow modelling is needed); JS falsiness
of a numeric field is `= 0`, of a string field `= ""`; fallible JS code is
modelled with `Except`/`Option`.
-/

set_option maxRecDepth 4000

-- Data model (src/store.ts types, src/interceptor.ts event payloads)

-- ===========================================================================
-- Definitions: shallow embedding of the interceptor, store, and IPC layer
-- ===========================================================================

/-- RequestStatus from store.ts: `number | "PENDING" | "ERROR"`. -/
inductive RequestStatus where
  | pending
  | err
  | code (n : Int)
  deriving DecidableEq

/-- TimingBreakdown from store.ts. -/
structure TimingBreakdown where
  dns : Int
  tcp : Int
  ttfb : Int
  download : Int
  total : Int
  deriving DecidableEq

/-- SizeInfo from store.ts. -/
structure SizeInfo where
  transferred : Int
  resource : Int
  encoding : Option String
  deriving DecidableEq

/-- The protocol tag `"http" | "https"`. -/
inductive Proto where
  | http
  | https
  deriving DecidableEq

/-- Header records are kept abstract as ordered key/value lists. -/
abbrev Headers := List (String × String)

/-- RequestLog from store.ts (one record of the store). The optional JS
fields `error?`, `timing?`, `size?` are `Option`. -/
structure RequestLog where
  id : String
  url : String
  method : String
  protocol : Proto
  host : String
  path : String
  status : RequestStatus
  duration : Int
  startTime : Int
  reqHeaders : Headers
  reqBody : String
  resHeaders : Headers
  resBody : String
  errMsg : Option String
  timing : Option TimingBreakdown
  size : Option SizeInfo
  deriving DecidableEq

/-- RequestStartEvent from interceptor.ts. -/
structure RequestStartEvent where
  id : String
  method : String
  url : String
  protocol : Proto
  host : String
  path : String
  headers : Headers
  startTime : Int
  deriving DecidableEq

/-- The seven lifecycle events of the event channel (interceptor.ts
`InterceptorEvents`), with their payloads. -/
inductive StoreEvent where
  | requestStart (e : RequestStartEvent)
  | requestBody (id : String) (body : String)
  | responseHeaders (id : String) (statusCode : Int) (statusMessage : String) (headers : Headers)
  | responseComplete (id : String) (body : String) (duration : Int)
  | requestError (id : String) (msg : String) (duration : Int)
  | timingUpdate (id : String) (t : TimingBreakdown)
  | sizeUpdate (id : String) (sz : SizeInfo)
  deriving DecidableEq

abbrev LogMap := List (String × RequestLog)

def mapHas (m : LogMap) (k : String) : Bool :=
  m.any (fun p => p.1 = k)

def mapGet (m : LogMap) (k : String) : Option RequestLog :=
  (m.find? (fun p => p.1 = k)).map (·.2)

def mapSet (m : LogMap) (k : String) (v : RequestLog) : LogMap :=
  if mapHas m k then m.map (fun p => if p.1 = k then (k, v) else p)
  else m ++ [(k, v)]

def mapDelete (m : LogMap) (k : String) : LogMap :=
  m.filter (fun p => ¬ p.1 = k)

def keysOf (m : LogMap) : List String := m.map (·.1)

/-- State of the RequestStore: the `logs` Map, the `orderedIds` array
(most recent first), and the registered listeners (identified abstractly
by numbers; the TS `Set<StoreListener>` has no duplicates). -/
structure StoreState where
  logs : LogMap
  orderedIds : List String
  listeners : List Nat

def MAX_LOGS : Nat := 50

/-- Snapshot delivered by `getLogs()`:
`this.orderedIds.map((id) => this.logs.get(id)!).filter(Boolean)`. -/
def getLogs (s : StoreState) : List RequestLog :=
  s.orderedIds.filterMap (fun id => mapGet s.logs id)

/-- The `while (this.orderedIds.length > MAX_LOGS)` eviction loop of
`addRequest`. The fuel argument bounds the iterations; `ids.length` always
suffices because each iteration pops one element. -/
def enforceCapAux : Nat → List String → LogMap → List String × LogMap
  | 0, ids, m => (ids, m)
  | fuel + 1, ids, m =>
    if MAX_LOGS < ids.length then
      let m1 := match ids.getLast? with
        | some oldId => if oldId = "" then m else mapDelete m oldId
        | none => m
      enforceCapAux fuel ids.dropLast m1
    else (ids, m)

def enforceCap (ids : List String) (m : LogMap) : List String × LogMap :=
  enforceCapAux ids.length ids m

/-- The fresh `PENDING` record built at the top of `addRequest`. -/
def newLogOf (e : RequestStartEvent) : RequestLog :=
  { id := e.id, url := e.url, method := e.method, protocol := e.protocol
    host := e.host, path := e.path, status := .pending, duration := 0
    startTime := e.startTime, reqHeaders := e.headers, reqBody := ""
    resHeaders := [], resBody := "", errMsg := none, timing := none, size := none }

/-- `RequestStore.addRequest`. -/
def addRequest (s : StoreState) (e : RequestStartEvent) : StoreState :=
  let logs1 := mapSet s.logs e.id (newLogOf e)
  let ids1 := e.id :: s.orderedIds
  let r := enforceCap ids1 logs1
  { s with logs := r.2, orderedIds := r.1 }

/-- The common shape of the update handlers: look up by id, mutate the
record if present, no-op otherwise. -/
def updateLog (s : StoreState) (id : String) (f : RequestLog → RequestLog) : StoreState :=
  match mapGet s.logs id with
  | some log => { s with logs := mapSet s.logs id (f log) }
  | none => s

/-- The store reaction to one event channel emission
(`attachInterceptorListeners` dispatch). -/
def step (s : StoreState) (e : StoreEvent) : StoreState :=
  match e with
  | .requestStart ev => addRequest s ev
  | .requestBody id body => updateLog s id (fun l => { l with reqBody := body })
  | .responseHeaders id code _msg hs =>
      updateLog s id (fun l => { l with status := .code code, resHeaders := hs })
  | .responseComplete id body dur =>
      updateLog s id (fun l => { l with resBody := body, duration := dur })
  | .requestError id msg dur =>
      updateLog s id (fun l => { l with status := .err, errMsg := some msg, duration := dur })
  | .timingUpdate id t => updateLog s id (fun l => { l with timing := some t })
  | .sizeUpdate id sz => updateLog s id (fun l => { l with size := some sz })

def emptyStore : StoreState := { logs := [], orderedIds := [], listeners := [] }

def applyTrace (tr : List StoreEvent) : StoreState := tr.foldl step emptyStore

/-- `notifyListeners`: compute the snapshot once, then deliver it to every
registered listener (each call is wrapped in try/catch in the source, so
every listener is reached). The result lists the deliveries. -/
def notifyListeners (s : StoreState) : List (Nat × List RequestLog) :=
  s.listeners.map (fun l => (l, getLogs s))

/-- `RequestStore.clear`: empty the Map and the id array, then notify. -/
def clearStore (s : StoreState) : StoreState × List (Nat × List RequestLog) :=
  let s1 := { s with logs := [], orderedIds := [] }
  (s1, notifyListeners s1)

/-- Concrete 50-id store state used to exercise the C4 theorem. -/
def capState : StoreState :=
  { logs := [], orderedIds := List.replicate MAX_LOGS "x", listeners := [] }

/-- Concrete request-start event used to exercise the C4 theorem. -/
def capEvent : RequestStartEvent :=
  { id := "y", method := "GET", url := "http://h/", protocol := .http, host := "h",
    path := "/", headers := [], startTime := 0 }

/-- The request id carried by an event. -/
def evId : StoreEvent → String
  | .requestStart e => e.id
  | .requestBody id _ => id
  | .responseHeaders id _ _ _ => id
  | .responseComplete id _ _ => id
  | .requestError id _ _ => id
  | .timingUpdate id _ => id
  | .sizeUpdate id _ => id

/-- Whether an event is a `request-start` (the only event inserting a new
record). -/
def isStart : StoreEvent → Bool
  | .requestStart _ => true
  | _ => false

/-- The consistency relation between `orderedIds` and the `logs` Map. -/
def consistent (s : StoreState) : Prop :=
  s.orderedIds.Nodup ∧ (keysOf s.logs).Nodup ∧
  (∀ id, id ∈ s.orderedIds ↔ id ∈ keysOf s.logs) ∧
  s.orderedIds.length = s.logs.length

/-- Reachable-state bundle: consistency, the capacity bound, and the fact
that no stored id is the empty string (uuid v4 ids are never empty). -/
def goodState (s : StoreState) : Prop :=
  consistent s ∧ s.orderedIds.length ≤ MAX_LOGS ∧ ∀ id ∈ s.orderedIds, ¬ id = ""

/-- The start-event ids occurring in a trace, in order. -/
def startIds : List StoreEvent → List String
  | [] => []
  | .requestStart e :: tr => e.id :: startIds tr
  | .requestBody _ _ :: tr => startIds tr
  | .responseHeaders _ _ _ _ :: tr => startIds tr
  | .responseComplete _ _ _ :: tr => startIds tr
  | .requestError _ _ _ :: tr => startIds tr
  | .timingUpdate _ _ :: tr => startIds tr
  | .sizeUpdate _ _ :: tr => startIds tr

/-- Trace hypothesis: request ids are fresh uuids — pairwise distinct and
nonempty. -/
def GoodTrace (tr : List StoreEvent) : Prop :=
  (startIds tr).Nodup ∧ ∀ id ∈ startIds tr, ¬ id = ""

/-- Concrete request-start event used to exercise the C9 theorem. -/
def syncStart : RequestStartEvent :=
  { id := "s1", method := "GET", url := "http://h/a", protocol := .http, host := "h",
    path := "/a", headers := [], startTime := 0 }

/-- Status of the record stored under `id`, if any. -/
def statusAt (s : StoreState) (id : String) : Option RequestStatus :=
  (mapGet s.logs id).map (fun l => l.status)

/-- Concrete request-start event of the C2 counterexample trace. -/
def cexStart : RequestStartEvent :=
  { id := "a", method := "GET", url := "http://h/", protocol := .http, host := "h",
    path := "/", headers := [], startTime := 0 }

/-- Trace: a request starts and its response headers (HTTP 200) arrive. -/
def cexHeadersTrace : List StoreEvent :=
  [.requestStart cexStart, .responseHeaders "a" 200 "OK" []]

/-- The same trace followed by a transport error for the same request id. -/
def cexErrorTrace : List StoreEvent :=
  cexHeadersTrace ++ [.requestError "a" "socket hang up" 5]

/-- A subscriber on the event channel: handles the request-start payload,
possibly throwing (modelled with `Except`). -/
abbrev Subscriber := RequestStartEvent → Except String Unit

/-- Models the synchronous dispatch of the Node `EventEmitter` that
`TypedEventEmitter.emit` delegates to unchanged (interceptor.ts lines
84-105): listeners run in subscription order, and a thrown exception aborts
dispatch and propagates to the `emit` caller. -/
def emitAll : List Subscriber → RequestStartEvent → Except String Unit
  | [], _ => .ok ()
  | l :: ls, e =>
    match l e with
    | .ok _ => emitAll ls e
    | .error msg => .error msg

/-- The part of `interceptedRequest` relevant to observer failures: the
`request-start` emission happens synchronously, with no try/catch, before
the original `http.request` is invoked (`callOriginal`); an exception
escaping `emit` therefore propagates to the caller of the intercepted entry
point instead of being discarded. -/
def interceptedRequest (subs : List Subscriber) (e : RequestStartEvent)
    (callOriginal : Unit → Except String Int) : Except String Int :=
  match emitAll subs e with
  | .ok _ => callOriginal ()
  | .error msg => .error msg

/-- Timing state shared between the socket listeners and the response end
handlers (`timing` object in `interceptedRequest`); a field is 0 when its
lifecycle signal has not fired. -/
structure TimingState where
  dnsEnd : Int
  tcpEnd : Int
  ttfbEnd : Int
  deriving DecidableEq

/-- JS `a || b` on numeric timestamps: `a` unless it is falsy (0). -/
def tsOr (a b : Int) : Int := if a = 0 then b else a

/-- The timing breakdown computed identically by the three response end
handlers (interceptor.ts lines 360-396, 426-444, 477-495), after
`timing.downloadEnd` was assigned `endTime`. -/
def computeTiming (startTime : Int) (t : TimingState) (endTime : Int) :
    TimingBreakdown :=
  { dns := if t.dnsEnd = 0 then 0 else t.dnsEnd - startTime
    tcp := if t.tcpEnd = 0 then 0 else t.tcpEnd - tsOr t.dnsEnd startTime
    ttfb := if t.ttfbEnd = 0 then 0
            else t.ttfbEnd - tsOr t.tcpEnd (tsOr t.dnsEnd startTime)
    download := endTime - tsOr t.ttfbEnd (tsOr t.tcpEnd (tsOr t.dnsEnd startTime))
    total := endTime - startTime }

/-- `stringifyBody`: captured chunks are modelled post-decode as strings, so
Buffer concatenation plus utf-8 decoding is string concatenation. -/
def stringifyBody (chunks : List String) : String := String.join chunks

/-- Event kind tags, to state which events a pathway emits. -/
inductive EvKind where
  | start
  | body
  | headers
  | complete
  | errorKind
  | timing
  | size
  deriving DecidableEq

def kindOf : StoreEvent → EvKind
  | .requestStart _ => .start
  | .requestBody _ _ => .body
  | .responseHeaders _ _ _ _ => .headers
  | .responseComplete _ _ _ => .complete
  | .requestError _ _ _ => .errorKind
  | .timingUpdate _ _ => .timing
  | .sizeUpdate _ _ => .size

/-- Events emitted by the end listener that the wrapped `res.on` installs
(interceptor.ts lines 358-404): timing-update, size-update, then
response-complete, all carrying the request id. -/
def onEndEvents (id : String) (startTime : Int) (t : TimingState) (endTime : Int)
    (chunks : List String) (transferredSize : Int) (totalBytesReceived : Int)
    (encoding : Option String) : List StoreEvent :=
  let body := stringifyBody chunks
  [ .timingUpdate id (computeTiming startTime t endTime),
    .sizeUpdate id
      { transferred := if transferredSize = 0 then totalBytesReceived else transferredSize
        resource := Int.ofNat body.utf8ByteSize
        encoding := encoding },
    .responseComplete id body (endTime - startTime) ]

/-- Events emitted by the end listener that the wrapped `res.once` installs
(interceptor.ts lines 409-455): timing-update then response-complete. -/
def onceEndEvents (id : String) (startTime : Int) (t : TimingState)
    (endTime : Int) (chunks : List String) : List StoreEvent :=
  [ .timingUpdate id (computeTiming startTime t endTime),
    .responseComplete id (stringifyBody chunks) (endTime - startTime) ]

/-- Events emitted by the PassThrough end listener that the wrapped
`res.pipe` installs (interceptor.ts lines 458-507): timing-update then
response-complete. -/
def pipeEndEvents (id : String) (startTime : Int) (t : TimingState)
    (endTime : Int) (chunks : List String) : List StoreEvent :=
  [ .timingUpdate id (computeTiming startTime t endTime),
    .responseComplete id (stringifyBody chunks) (endTime - startTime) ]

/-- A JS `options.port` value: a number, a string, or absent. -/
inductive JsPort where
  | num (n : Int)
  | str (s : String)
  | undef
  deriving DecidableEq

/-- JS truthiness of the port value: 0, the empty string and undefined are
falsy. -/
def portTruthy : JsPort → Bool
  | .num n => n != 0
  | .str s => s != ""
  | .undef => false

def digitChar : Nat → Char
  | 0 => '0'
  | 1 => '1'
  | 2 => '2'
  | 3 => '3'
  | 4 => '4'
  | 5 => '5'
  | 6 => '6'
  | 7 => '7'
  | 8 => '8'
  | _ => '9'

/-- Decimal digit sequence of a natural number, as JS renders integers. -/
def natDigits (n : Nat) : List Char :=
  if _h : n < 10 then [digitChar n]
  else natDigits (n / 10) ++ [digitChar (n % 10)]
termination_by n
decreasing_by exact Nat.div_lt_self (by omega) (by omega)

/-- Decimal rendering of an integer, as JS template interpolation and
`JSON.stringify` produce for integral numbers. -/
def renderInt (n : Int) : List Char :=
  if n < 0 then '-' :: natDigits (-n).toNat else natDigits n.toNat

/-- JS template interpolation of the port value. -/
def portChars : JsPort → List Char
  | .num n => renderInt n
  | .str s => s.data
  | .undef => "undefined".data

/-- The fields of `http.RequestOptions` that `buildUrl` consults. -/
structure RequestOptions where
  hostname : Option String
  host : Option String
  port : JsPort
  path : Option String
  deriving DecidableEq

/-- JS `a || b` for an optional string (the empty string is falsy). -/
def jsOrStr (a : Option String) (b : String) : String :=
  match a with
  | some s => if s = "" then b else s
  | none => b

def protoChars : Proto → List Char
  | .http => "http".data
  | .https => "https".data

/-- `buildUrl` from interceptor.ts (lines 195-212), producing the URL as a
character sequence; `port !== 80` / `port !== 443` are JS strict
comparisons, false for the string values "80"/"443". -/
def buildUrl (options : RequestOptions) (protocol : Proto) : List Char :=
  let host := jsOrStr options.hostname (jsOrStr options.host "localhost")
  let port := options.port
  let path := jsOrStr options.path "/"
  let base := protoChars protocol ++ "://".data ++ host.data
  let withPort :=
    if portTruthy port && !(port == .num 80) && !(port == .num 443) then
      base ++ ':' :: portChars port
    else base
  withPort ++ path.data

/-- Modelled from the claim text: the recorded URL carries a port suffix
exactly when the resolved port option is truthy and not strictly equal to
the numbers 80 or 443. -/
def specIncludesPort (p : JsPort) : Bool :=
  portTruthy p && !(p == .num 80) && !(p == .num 443)

/-- A function value occupying an entry point: either some pre-existing
function (`base`) or one of the wrappers the interceptor installs. -/
inductive Func where
  | base (n : Nat)
  | interceptor (p : Proto) (orig : Func)
  | getWrapper (p : Proto)
  | fetchWrapper
  deriving DecidableEq

/-- The process-wide entry points the interceptor touches; `fetchFn = none`
models `globalThis.fetch` not being a function. -/
structure EntryPoints where
  httpRequest : Func
  httpsRequest : Func
  httpGet : Func
  httpsGet : Func
  fetchFn : Option Func
  deriving DecidableEq

/-- The module-level interception state of interceptor.ts: the five saved
originals and the `isIntercepting` flag. -/
structure PatchState where
  originalHttpRequest : Option Func
  originalHttpsRequest : Option Func
  originalHttpGet : Option Func
  originalHttpsGet : Option Func
  originalFetch : Option Func
  isIntercepting : Bool
  deriving DecidableEq

def initialPatchState : PatchState :=
  { originalHttpRequest := none, originalHttpsRequest := none,
    originalHttpGet := none, originalHttpsGet := none,
    originalFetch := none, isIntercepting := false }

/-- `startInterceptor` (interceptor.ts lines 651-796): early-return when
already intercepting; otherwise save the originals (fetch only when it is a
function), patch request/get entry points, and patch fetch when an original
fetch was saved. -/
def startInterceptor (g : EntryPoints) (st : PatchState) :
    EntryPoints × PatchState :=
  if st.isIntercepting then (g, st)
  else
    let oFetch := match g.fetchFn with
      | some f => some f
      | none => st.originalFetch
    let g1 : EntryPoints :=
      { httpRequest := .interceptor .http g.httpRequest
        httpsRequest := .interceptor .https g.httpsRequest
        httpGet := .getWrapper .http
        httpsGet := .getWrapper .https
        fetchFn := match oFetch with
          | some _ => some .fetchWrapper
          | none => g.fetchFn }
    let st1 : PatchState :=
      { originalHttpRequest := some g.httpRequest
        originalHttpsRequest := some g.httpsRequest
        originalHttpGet := some g.httpGet
        originalHttpsGet := some g.httpsGet
        originalFetch := oFetch
        isIntercepting := true }
    (g1, st1)

/-- `stopInterceptor` (interceptor.ts lines 801-832): early-return when not
intercepting; otherwise restore each entry point from its saved original
when one is present and null every saved slot. -/
def stopInterceptor (g : EntryPoints) (st : PatchState) :
    EntryPoints × PatchState :=
  if st.isIntercepting = false then (g, st)
  else
    let g1 : EntryPoints :=
      { httpRequest := st.originalHttpRequest.getD g.httpRequest
        httpsRequest := st.originalHttpsRequest.getD g.httpsRequest
        httpGet := st.originalHttpGet.getD g.httpGet
        httpsGet := st.originalHttpsGet.getD g.httpsGet
        fetchFn := match st.originalFetch with
          | some f => some f
          | none => g.fetchFn }
    (g1, initialPatchState)

def hexDigit : Nat → Char
  | 0 => '0'
  | 1 => '1'
  | 2 => '2'
  | 3 => '3'
  | 4 => '4'
  | 5 => '5'
  | 6 => '6'
  | 7 => '7'
  | 8 => '8'
  | 9 => '9'
  | 10 => 'a'
  | 11 => 'b'
  | 12 => 'c'
  | 13 => 'd'
  | 14 => 'e'
  | _ => 'f'

/-- `JSON.stringify` escaping of one string character. -/
def escapeChar (c : Char) : List Char :=
  if c = '"' then ['\\', '"']
  else if c = '\\' then ['\\', '\\']
  else if c = '\n' then ['\\', 'n']
  else if c = '\r' then ['\\', 'r']
  else if c = '\t' then ['\\', 't']
  else if c = '\x08' then ['\\', 'b']
  else if c = '\x0c' then ['\\', 'f']
  else if c.toNat < 32 then
    ['\\', 'u', '0', '0', hexDigit (c.toNat / 16), hexDigit (c.toNat % 16)]
  else [c]

/-- `JSON.stringify` of a string value. -/
def serializeStr (s : String) : List Char :=
  '"' :: (s.data.map escapeChar).flatten ++ ['"']

/-- Comma-separated concatenation of already serialized items. -/
def sepComma : List (List Char) → List Char
  | [] => []
  | [x] => x
  | x :: y :: ys => x ++ ',' :: sepComma (y :: ys)

/-- One `"key":value` member of a JSON object. -/
def serializeField (k : String) (v : List Char) : List Char :=
  serializeStr k ++ ':' :: v

/-- A JSON object from its serialized members. -/
def serializeObjFields (fs : List (List Char)) : List Char :=
  '\x7b' :: sepComma fs ++ ['\x7d']

/-- `JSON.stringify` of the status field: a number or one of the strings
"PENDING" / "ERROR". -/
def serializeStatus : RequestStatus → List Char
  | .pending => serializeStr "PENDING"
  | .err => serializeStr "ERROR"
  | .code n => renderInt n

def serializeHeaders (hs : Headers) : List Char :=
  serializeObjFields (hs.map (fun p => serializeField p.1 (serializeStr p.2)))

def serializeTiming (t : TimingBreakdown) : List Char :=
  serializeObjFields
    [ serializeField "dns" (renderInt t.dns),
      serializeField "tcp" (renderInt t.tcp),
      serializeField "ttfb" (renderInt t.ttfb),
      serializeField "download" (renderInt t.download),
      serializeField "total" (renderInt t.total) ]

def serializeSize (sz : SizeInfo) : List Char :=
  serializeObjFields
    [ serializeField "transferred" (renderInt sz.transferred),
      serializeField "resource" (renderInt sz.resource),
      serializeField "encoding"
        (match sz.encoding with
          | some s => serializeStr s
          | none => "null".data) ]

def protoName : Proto → String
  | .http => "http"
  | .https => "https"

/-- `JSON.stringify` of one RequestLog: the always-present fields in
declaration order, then the optional `error`, `timing`, `size` members,
omitted when undefined. -/
def serializeLog (l : RequestLog) : List Char :=
  serializeObjFields
    ([ serializeField "id" (serializeStr l.id),
       serializeField "url" (serializeStr l.url),
       serializeField "method" (serializeStr l.method),
       serializeField "protocol" (serializeStr (protoName l.protocol)),
       serializeField "host" (serializeStr l.host),
       serializeField "path" (serializeStr l.path),
       serializeField "status" (serializeStatus l.status),
       serializeField "duration" (renderInt l.duration),
       serializeField "startTime" (renderInt l.startTime),
       serializeField "reqHeaders" (serializeHeaders l.reqHeaders),
       serializeField "reqBody" (serializeStr l.reqBody),
       serializeField "resHeaders" (serializeHeaders l.resHeaders),
       serializeField "resBody" (serializeStr l.resBody) ]
      ++ (match l.errMsg with
          | some e => [serializeField "error" (serializeStr e)]
          | none => [])
      ++ (match l.timing with
          | some t => [serializeField "timing" (serializeTiming t)]
          | none => [])
      ++ (match l.size with
          | some sz => [serializeField "size" (serializeSize sz)]
          | none => []))

def serializeLogs (ls : List RequestLog) : List Char :=
  '[' :: sepComma (ls.map serializeLog) ++ [']']

/-- The server-to-viewer messages of ipc.ts. -/
inductive ServerMessage where
  | init (logs : List RequestLog)
  | update (logs : List RequestLog)

/-- `JSON.stringify` of a server message. -/
def serializeMessage : ServerMessage → List Char
  | .init ls =>
      serializeObjFields
        [serializeField "type" (serializeStr "init"),
          serializeField "logs" (serializeLogs ls)]
  | .update ls =>
      serializeObjFields
        [serializeField "type" (serializeStr "update"),
          serializeField "logs" (serializeLogs ls)]

/-- `encodeMessage` from ipc.ts: the JSON text followed by a newline. -/
def encodeMessage (m : ServerMessage) : List Char :=
  serializeMessage m ++ ['\n']

/-- One server-side occurrence: a viewer connection (carrying the snapshot
`store.getLogs()` read synchronously by the connection handler) or a store
notification. -/
inductive ServerEv where
  | connect (viewer : Nat) (snapshot : List RequestLog)
  | notify (logs : List RequestLog)

def connectsOf : List ServerEv → List Nat
  | [] => []
  | .connect v _ :: tr => v :: connectsOf tr
  | .notify _ :: tr => connectsOf tr

def notifySnapshots : List ServerEv → List (List RequestLog)
  | [] => []
  | .connect _ _ :: tr => notifySnapshots tr
  | .notify logs :: tr => logs :: notifySnapshots tr

/-- Frames written to viewer `v`'s socket over a session (ipc.ts lines
123-160 and 174-179): on its connection the handler writes one `init`
frame with the current snapshot; afterwards the store listener broadcasts
one `update` frame per store notification to every connected socket. -/
def viewerFrames (v : Nat) : List ServerEv → Bool → List (List Char)
  | [], _ => []
  | .connect w snap :: rest, connected =>
      if w = v then encodeMessage (.init snap) :: viewerFrames v rest true
      else viewerFrames v rest connected
  | .notify logs :: rest, connected =>
      (if connected then [encodeMessage (.update logs)] else [])
        ++ viewerFrames v rest connected

/-- Splitting a character stream at newline delimiters (the viewer's
line-buffered parse loop in ipc.ts). -/
def splitNl : List Char → List (List Char)
  | [] => [[]]
  | c :: cs =>
    if c = '\n' then [] :: splitNl cs
    else
      match splitNl cs with
      | [] => [[c]]
      | l :: ls => (c :: l) :: ls

/-- Newline-freeness of a serialized payload. -/
abbrev NlFree (cs : List Char) : Prop := '\n' ∉ cs

-- ===========================================================================
-- Theorems
-- ===========================================================================

theorem mapGet_nil (k : String) : mapGet [] k = none := rfl

theorem mapGet_cons (p : String × RequestLog) (m : LogMap) (k : String) :
    mapGet (p :: m) k = if p.1 = k then some p.2 else mapGet m k := by
  by_cases hp : p.1 = k
  · simp [mapGet, List.find?_cons_of_pos, hp]
  · simp [mapGet, List.find?_cons_of_neg, hp]

theorem mapHas_nil (k : String) : mapHas [] k = false := rfl

theorem mapHas_cons (p : String × RequestLog) (m : LogMap) (k : String) :
    mapHas (p :: m) k = (decide (p.1 = k) || mapHas m k) := by
  simp [mapHas]

theorem mapHas_iff_mem_keys (m : LogMap) (k : String) :
    mapHas m k = true ↔ k ∈ keysOf m := by
  simp only [mapHas, keysOf, List.any_eq_true, decide_eq_true_eq, List.mem_map]

theorem mapGet_append_single_self (m : LogMap) (k : String) (v : RequestLog)
    (h : mapHas m k = false) : mapGet (m ++ [(k, v)]) k = some v := by
  induction m with
  | nil => simp [mapGet_cons]
  | cons p m ih =>
    rw [mapHas_cons] at h
    simp only [Bool.or_eq_false_iff, decide_eq_false_iff_not] at h
    rw [List.cons_append, mapGet_cons, if_neg h.1]
    exact ih h.2

theorem mapGet_subst_self (m : LogMap) (k : String) (v : RequestLog)
    (h : mapHas m k = true) :
    mapGet (m.map (fun p => if p.1 = k then (k, v) else p)) k = some v := by
  induction m with
  | nil => simp [mapHas] at h
  | cons p m ih =>
    by_cases hp : p.1 = k
    · rw [List.map_cons, if_pos hp, mapGet_cons, if_pos rfl]
    · rw [List.map_cons, if_neg hp, mapGet_cons, if_neg hp]
      rw [mapHas_cons] at h
      simp only [Bool.or_eq_true, decide_eq_true_eq] at h
      rcases h with h | h
      · exact absurd h hp
      · exact ih h

theorem mapGet_mapSet_self (m : LogMap) (k : String) (v : RequestLog) :
    mapGet (mapSet m k v) k = some v := by
  unfold mapSet
  by_cases h : mapHas m k
  · rw [if_pos h]; exact mapGet_subst_self m k v h
  · rw [if_neg h]
    exact mapGet_append_single_self m k v (by simpa using h)

theorem mapGet_subst_ne (m : LogMap) (k k' : String) (v : RequestLog) (h : ¬ k' = k) :
    mapGet (m.map (fun p => if p.1 = k then (k, v) else p)) k' = mapGet m k' := by
  induction m with
  | nil => rfl
  | cons p m ih =>
    by_cases hp : p.1 = k
    · rw [List.map_cons, if_pos hp, mapGet_cons, mapGet_cons]
      have h1 : ¬ ((k, v).1 = k') := fun hk => h hk.symm
      have h2 : ¬ (p.1 = k') := by rw [hp]; exact fun hk => h hk.symm
      rw [if_neg h1, if_neg h2]
      exact ih
    · rw [List.map_cons, if_neg hp, mapGet_cons, mapGet_cons]
      by_cases hpk : p.1 = k'
      · rw [if_pos hpk, if_pos hpk]
      · rw [if_neg hpk, if_neg hpk]; exact ih

theorem mapGet_append_single_ne (m : LogMap) (k k' : String) (v : RequestLog) (h : ¬ k' = k) :
    mapGet (m ++ [(k, v)]) k' = mapGet m k' := by
  induction m with
  | nil =>
    rw [List.nil_append, mapGet_cons]
    exact if_neg (fun hk => h hk.symm)
  | cons p m ih =>
    rw [List.cons_append, mapGet_cons, mapGet_cons]
    by_cases hpk : p.1 = k'
    · rw [if_pos hpk, if_pos hpk]
    · rw [if_neg hpk, if_neg hpk]; exact ih

theorem mapGet_mapSet_ne (m : LogMap) (k k' : String) (v : RequestLog) (h : ¬ k' = k) :
    mapGet (mapSet m k v) k' = mapGet m k' := by
  unfold mapSet
  by_cases hh : mapHas m k
  · rw [if_pos hh]; exact mapGet_subst_ne m k k' v h
  · rw [if_neg hh]; exact mapGet_append_single_ne m k k' v h

theorem mapGet_mapDelete_ne (m : LogMap) (k k' : String) (h : ¬ k' = k) :
    mapGet (mapDelete m k) k' = mapGet m k' := by
  induction m with
  | nil => rfl
  | cons p m ih =>
    by_cases hp : p.1 = k
    · have h2 : ¬ (p.1 = k') := by rw [hp]; exact fun hk => h hk.symm
      have hd : mapDelete (p :: m) k = mapDelete m k := by
        simp [mapDelete, List.filter_cons, hp]
      rw [hd, mapGet_cons, if_neg h2]
      exact ih
    · have hd : mapDelete (p :: m) k = p :: mapDelete m k := by
        simp [mapDelete, List.filter_cons, hp]
      rw [hd, mapGet_cons, mapGet_cons]
      by_cases hpk : p.1 = k'
      · rw [if_pos hpk, if_pos hpk]
      · rw [if_neg hpk, if_neg hpk]
        exact ih

theorem mapGet_isSome_of_mapHas (m : LogMap) (k : String) (h : mapHas m k = true) :
    (mapGet m k).isSome := by
  induction m with
  | nil => simp [mapHas] at h
  | cons p m ih =>
    rw [mapGet_cons]
    by_cases hp : p.1 = k
    · simp [hp]
    · rw [if_neg hp]
      rw [mapHas_cons] at h
      simp only [Bool.or_eq_true, decide_eq_true_eq] at h
      rcases h with h | h
      · exact absurd h hp
      · exact ih h

theorem mapHas_of_mapGet_isSome (m : LogMap) (k : String) (h : (mapGet m k).isSome) :
    mapHas m k = true := by
  induction m with
  | nil => simp [mapGet] at h
  | cons p m ih =>
    rw [mapHas_cons]
    simp only [Bool.or_eq_true, decide_eq_true_eq]
    rw [mapGet_cons] at h
    by_cases hp : p.1 = k
    · exact Or.inl hp
    · rw [if_neg hp] at h
      exact Or.inr (ih h)

theorem updateLog_orderedIds (s : StoreState) (id : String) (f : RequestLog → RequestLog) :
    (updateLog s id f).orderedIds = s.orderedIds := by
  unfold updateLog
  cases mapGet s.logs id <;> rfl

theorem updateLog_listeners (s : StoreState) (id : String) (f : RequestLog → RequestLog) :
    (updateLog s id f).listeners = s.listeners := by
  unfold updateLog
  cases mapGet s.logs id <;> rfl

theorem mapGet_updateLog_self (s : StoreState) (id : String) (f : RequestLog → RequestLog) :
    mapGet (updateLog s id f).logs id = (mapGet s.logs id).map f := by
  unfold updateLog
  cases h : mapGet s.logs id with
  | none => simp [h]
  | some log => simp [h, mapGet_mapSet_self]

theorem mapGet_updateLog_ne (s : StoreState) (id id' : String) (f : RequestLog → RequestLog)
    (h : ¬ id' = id) :
    mapGet (updateLog s id f).logs id' = mapGet s.logs id' := by
  unfold updateLog
  cases hg : mapGet s.logs id with
  | none => simp [hg]
  | some log => simp [hg, mapGet_mapSet_ne _ _ _ _ h]

theorem enforceCapAux_of_le (fuel : Nat) (ids : List String) (m : LogMap)
    (h : ids.length ≤ MAX_LOGS) : enforceCapAux fuel ids m = (ids, m) := by
  cases fuel with
  | zero => rfl
  | succ n => rw [enforceCapAux, if_neg (by omega)]

theorem enforceCap_of_le (ids : List String) (m : LogMap) (h : ids.length ≤ MAX_LOGS) :
    enforceCap ids m = (ids, m) :=
  enforceCapAux_of_le ids.length ids m h

theorem enforceCap_of_succ (ids : List String) (m : LogMap)
    (h : ids.length = MAX_LOGS + 1) :
    enforceCap ids m =
      (ids.dropLast,
        match ids.getLast? with
        | some oldId => if oldId = "" then m else mapDelete m oldId
        | none => m) := by
  unfold enforceCap
  rw [h, enforceCapAux, if_pos (by omega)]
  exact enforceCapAux_of_le MAX_LOGS ids.dropLast _
    (by rw [List.length_dropLast, h]; omega)

theorem enforceCap_of_succ_getLast (ids : List String) (m : LogMap) (b : String)
    (h : ids.length = MAX_LOGS + 1) (hb : ids.getLast? = some b) :
    enforceCap ids m = (ids.dropLast, if b = "" then m else mapDelete m b) := by
  rw [enforceCap_of_succ ids m h, hb]

theorem addRequest_orderedIds (s : StoreState) (e : RequestStartEvent) :
    (addRequest s e).orderedIds
      = (enforceCap (e.id :: s.orderedIds) (mapSet s.logs e.id (newLogOf e))).1 := rfl

theorem addRequest_logs (s : StoreState) (e : RequestStartEvent) :
    (addRequest s e).logs
      = (enforceCap (e.id :: s.orderedIds) (mapSet s.logs e.id (newLogOf e))).2 := rfl

theorem addRequest_orderedIds_le (s : StoreState) (e : RequestStartEvent)
    (h : s.orderedIds.length ≤ MAX_LOGS) :
    (addRequest s e).orderedIds.length ≤ MAX_LOGS := by
  rw [addRequest_orderedIds]
  by_cases hc : (e.id :: s.orderedIds).length ≤ MAX_LOGS
  · rw [enforceCap_of_le _ _ hc]; exact hc
  · have hs : (e.id :: s.orderedIds).length = MAX_LOGS + 1 := by
      rw [List.length_cons]; rw [List.length_cons] at hc; omega
    rw [enforceCap_of_succ _ _ hs]
    simp only [List.length_dropLast, hs]
    omega

theorem step_orderedIds_length_le (s : StoreState) (e : StoreEvent)
    (h : s.orderedIds.length ≤ MAX_LOGS) :
    (step s e).orderedIds.length ≤ MAX_LOGS := by
  cases e with
  | requestStart ev => exact addRequest_orderedIds_le s ev h
  | requestBody id body => rw [step, updateLog_orderedIds]; exact h
  | responseHeaders id code msg hs => rw [step, updateLog_orderedIds]; exact h
  | responseComplete id body dur => rw [step, updateLog_orderedIds]; exact h
  | requestError id msg dur => rw [step, updateLog_orderedIds]; exact h
  | timingUpdate id t => rw [step, updateLog_orderedIds]; exact h
  | sizeUpdate id sz => rw [step, updateLog_orderedIds]; exact h

theorem foldl_step_length_le (tr : List StoreEvent) (s : StoreState)
    (h : s.orderedIds.length ≤ MAX_LOGS) :
    (tr.foldl step s).orderedIds.length ≤ MAX_LOGS := by
  induction tr generalizing s with
  | nil => exact h
  | cons e tr ih => exact ih (step s e) (step_orderedIds_length_le s e h)

theorem addRequest_head (s : StoreState) (e : RequestStartEvent)
    (h : s.orderedIds.length ≤ MAX_LOGS) :
    (addRequest s e).orderedIds.head? = some e.id := by
  rw [addRequest_orderedIds]
  by_cases hc : (e.id :: s.orderedIds).length ≤ MAX_LOGS
  · rw [enforceCap_of_le _ _ hc]; rfl
  · have hs : (e.id :: s.orderedIds).length = MAX_LOGS + 1 := by
      rw [List.length_cons]; rw [List.length_cons] at hc; omega
    rw [enforceCap_of_succ _ _ hs]
    rcases hids : s.orderedIds with _ | ⟨a, rest⟩
    · rw [hids] at hs; simp [MAX_LOGS] at hs
    · simp [List.dropLast_cons₂]

theorem addRequest_at_cap (s : StoreState) (e : RequestStartEvent)
    (h : s.orderedIds.length = MAX_LOGS) :
    (addRequest s e).orderedIds = e.id :: s.orderedIds.dropLast := by
  rw [addRequest_orderedIds]
  have hs : (e.id :: s.orderedIds).length = MAX_LOGS + 1 := by
    rw [List.length_cons, h]
  rw [enforceCap_of_succ _ _ hs]
  rcases hids : s.orderedIds with _ | ⟨a, rest⟩
  · rw [hids] at h; simp [MAX_LOGS] at h
  · simp [List.dropLast_cons₂]

theorem addRequest_get_self (s : StoreState) (e : RequestStartEvent)
    (hlen : s.orderedIds.length ≤ MAX_LOGS) (hmem : e.id ∉ s.orderedIds) :
    mapGet (addRequest s e).logs e.id = some (newLogOf e) := by
  rw [addRequest_logs]
  by_cases hc : (e.id :: s.orderedIds).length ≤ MAX_LOGS
  · rw [enforceCap_of_le _ _ hc]
    exact mapGet_mapSet_self _ _ _
  · have hs : (e.id :: s.orderedIds).length = MAX_LOGS + 1 := by
      rw [List.length_cons]; rw [List.length_cons] at hc; omega
    rw [enforceCap_of_succ _ _ hs]
    have hne : s.orderedIds ≠ [] := by
      intro hnil; rw [hnil] at hs; simp [MAX_LOGS] at hs
    have hlast : (e.id :: s.orderedIds).getLast? = some (s.orderedIds.getLast hne) := by
      rw [List.getLast?_eq_getLast_of_ne_nil (List.cons_ne_nil _ _), List.getLast_cons hne]
    rw [hlast]
    have hbmem : s.orderedIds.getLast hne ∈ s.orderedIds := List.getLast_mem hne
    have hbne : ¬ e.id = s.orderedIds.getLast hne := fun hEq => hmem (hEq ▸ hbmem)
    by_cases hbe : s.orderedIds.getLast hne = ""
    · simp only [hbe, if_pos rfl]
      exact mapGet_mapSet_self _ _ _
    · simp only [if_neg hbe]
      rw [mapGet_mapDelete_ne _ _ _ hbne]
      exact mapGet_mapSet_self _ _ _

/-- C4 (confirmed): starting from the empty store, after any sequence of
event channel emissions the store never holds more than `MAX_LOGS = 50`
records; each `request-start` inserts the new record id at the head of the
insertion order; and a `request-start` hitting the cap drops exactly the
tail (oldest) id while keeping every other id in order — the record statuses
are never consulted, so this holds whether or not the evicted record is
still `Pending`. -/
theorem store_cap_and_eviction :
    (∀ tr : List StoreEvent,
        (applyTrace tr).orderedIds.length ≤ MAX_LOGS ∧
        (getLogs (applyTrace tr)).length ≤ MAX_LOGS)
    ∧ (∀ (s : StoreState) (e : RequestStartEvent),
        s.orderedIds.length ≤ MAX_LOGS →
        (step s (.requestStart e)).orderedIds.head? = some e.id)
    ∧ (∀ (s : StoreState) (e : RequestStartEvent),
        s.orderedIds.length = MAX_LOGS →
        (step s (.requestStart e)).orderedIds = e.id :: s.orderedIds.dropLast)
    ∧ (∀ (s : StoreState) (e : RequestStartEvent),
        s.orderedIds.length ≤ MAX_LOGS → e.id ∉ s.orderedIds →
        mapGet (step s (.requestStart e)).logs e.id = some (newLogOf e)
          ∧ (newLogOf e).status = .pending) := by
  refine ⟨fun tr => ?_, fun s e h => addRequest_head s e h,
    fun s e h => addRequest_at_cap s e h,
    fun s e h1 h2 => ⟨addRequest_get_self s e h1 h2, rfl⟩⟩
  have h1 : (applyTrace tr).orderedIds.length ≤ MAX_LOGS :=
    foldl_step_length_le tr emptyStore (by simp [emptyStore])
  exact ⟨h1, le_trans (List.length_filterMap_le _ _) h1⟩

theorem store_cap_and_eviction_witness :
    (applyTrace []).orderedIds.length ≤ MAX_LOGS ∧
    (step capState (.requestStart capEvent)).orderedIds.head? = some "y" ∧
    (step capState (.requestStart capEvent)).orderedIds
      = "y" :: capState.orderedIds.dropLast ∧
    mapGet (step capState (.requestStart capEvent)).logs "y"
      = some (newLogOf capEvent) :=
  ⟨(store_cap_and_eviction.1 []).1,
    store_cap_and_eviction.2.1 capState capEvent (by simp [capState]),
    store_cap_and_eviction.2.2.1 capState capEvent (by simp [capState]),
    (store_cap_and_eviction.2.2.2 capState capEvent (by simp [capState])
      (by decide)).1⟩

theorem keysOf_cons (p : String × RequestLog) (m : LogMap) :
    keysOf (p :: m) = p.1 :: keysOf m := rfl

theorem keysOf_subst (m : LogMap) (k : String) (v : RequestLog) :
    keysOf (m.map (fun p => if p.1 = k then (k, v) else p)) = keysOf m := by
  induction m with
  | nil => rfl
  | cons p m ih =>
    rw [List.map_cons, keysOf_cons, keysOf_cons, ih]
    congr 1
    by_cases hp : p.1 = k
    · rw [if_pos hp]; exact hp.symm
    · rw [if_neg hp]

theorem keysOf_mapSet_of_has (m : LogMap) (k : String) (v : RequestLog)
    (h : mapHas m k = true) : keysOf (mapSet m k v) = keysOf m := by
  rw [mapSet, if_pos h]; exact keysOf_subst m k v

theorem keysOf_mapSet_of_not_has (m : LogMap) (k : String) (v : RequestLog)
    (h : mapHas m k = false) : keysOf (mapSet m k v) = keysOf m ++ [k] := by
  rw [mapSet, if_neg (by simp [h]), keysOf, List.map_append]; rfl

theorem length_mapSet_of_has (m : LogMap) (k : String) (v : RequestLog)
    (h : mapHas m k = true) : (mapSet m k v).length = m.length := by
  rw [mapSet, if_pos h, List.length_map]

theorem keysOf_mapDelete (m : LogMap) (k : String) :
    keysOf (mapDelete m k) = (keysOf m).filter (fun x => ¬ x = k) := by
  induction m with
  | nil => rfl
  | cons p m ih =>
    by_cases hp : p.1 = k
    · have hd : mapDelete (p :: m) k = mapDelete m k := by
        simp [mapDelete, List.filter_cons, hp]
      rw [hd, ih, keysOf_cons, List.filter_cons]
      simp [hp]
    · have hd : mapDelete (p :: m) k = p :: mapDelete m k := by
        simp [mapDelete, List.filter_cons, hp]
      rw [hd, keysOf_cons, keysOf_cons, ih, List.filter_cons]
      simp [hp]

theorem mapDelete_of_not_mem (m : LogMap) (k : String) (h : k ∉ keysOf m) :
    mapDelete m k = m := by
  induction m with
  | nil => rfl
  | cons p m ih =>
    have hp : ¬ p.1 = k := by
      intro hpk
      exact h (by rw [keysOf_cons]; exact List.mem_cons.mpr (Or.inl hpk.symm))
    have hd : mapDelete (p :: m) k = p :: mapDelete m k := by
      simp [mapDelete, List.filter_cons, hp]
    rw [hd, ih (fun hm => h (by rw [keysOf_cons]; exact List.mem_cons_of_mem _ hm))]

theorem length_mapDelete_of_mem (m : LogMap) (k : String)
    (hnd : (keysOf m).Nodup) (hmem : k ∈ keysOf m) :
    (mapDelete m k).length + 1 = m.length := by
  induction m with
  | nil => simp [keysOf] at hmem
  | cons p m ih =>
    rw [keysOf_cons] at hnd hmem
    rw [List.nodup_cons] at hnd
    by_cases hp : p.1 = k
    · have hd : mapDelete (p :: m) k = mapDelete m k := by
        simp [mapDelete, List.filter_cons, hp]
      rw [hd, mapDelete_of_not_mem m k (hp ▸ hnd.1), List.length_cons]
    · have hd : mapDelete (p :: m) k = p :: mapDelete m k := by
        simp [mapDelete, List.filter_cons, hp]
      have hmem2 : k ∈ keysOf m := by
        rcases List.mem_cons.mp hmem with h1 | h1
        · exact absurd h1.symm hp
        · exact h1
      rw [hd, List.length_cons, List.length_cons, ih hnd.2 hmem2]

theorem keysOf_enforceCapAux_subset (fuel : Nat) (ids : List String) (m : LogMap) :
    ∀ k, k ∈ keysOf (enforceCapAux fuel ids m).2 → k ∈ keysOf m := by
  induction fuel generalizing ids m with
  | zero => intro k hk; exact hk
  | succ n ih =>
    intro k hk
    rw [enforceCapAux] at hk
    by_cases hc : MAX_LOGS < ids.length
    · rw [if_pos hc] at hk
      have := ih ids.dropLast _ k hk
      revert this
      cases ids.getLast? with
      | none => exact id
      | some oldId =>
        by_cases ho : oldId = ""
        · simp only [ho, if_pos rfl]; exact id
        · simp only [if_neg ho]
          intro hmem
          rw [keysOf_mapDelete] at hmem
          exact (List.mem_filter.mp hmem).1
    · rw [if_neg hc] at hk; exact hk

theorem keysOf_mapSet_subset (m : LogMap) (k : String) (v : RequestLog) :
    ∀ x, x ∈ keysOf (mapSet m k v) → x = k ∨ x ∈ keysOf m := by
  intro x hx
  by_cases h : mapHas m k
  · rw [keysOf_mapSet_of_has m k v h] at hx; exact Or.inr hx
  · rw [keysOf_mapSet_of_not_has m k v (by simpa using h)] at hx
    rcases List.mem_append.mp hx with h1 | h1
    · exact Or.inr h1
    · exact Or.inl (List.mem_singleton.mp h1)

theorem length_mapSet_of_not_has (m : LogMap) (k : String) (v : RequestLog)
    (h : mapHas m k = false) : (mapSet m k v).length = m.length + 1 := by
  rw [mapSet, if_neg (by simp [h]), List.length_append, List.length_singleton]

theorem updateLog_keysOf (s : StoreState) (id : String) (f : RequestLog → RequestLog) :
    keysOf (updateLog s id f).logs = keysOf s.logs := by
  unfold updateLog
  cases hg : mapGet s.logs id with
  | none => rfl
  | some l =>
    simp only
    exact keysOf_mapSet_of_has _ _ _
      (mapHas_of_mapGet_isSome _ _ (by rw [hg]; rfl))

theorem updateLog_logs_length (s : StoreState) (id : String) (f : RequestLog → RequestLog) :
    (updateLog s id f).logs.length = s.logs.length := by
  unfold updateLog
  cases hg : mapGet s.logs id with
  | none => rfl
  | some l =>
    simp only
    exact length_mapSet_of_has _ _ _
      (mapHas_of_mapGet_isSome _ _ (by rw [hg]; rfl))

theorem goodState_updateLog (s : StoreState) (id : String) (f : RequestLog → RequestLog)
    (hg : goodState s) : goodState (updateLog s id f) := by
  obtain ⟨⟨h1, h2, h3, h4⟩, h5, h6⟩ := hg
  refine ⟨⟨?_, ?_, ?_, ?_⟩, ?_, ?_⟩
  · rw [updateLog_orderedIds]; exact h1
  · rw [updateLog_keysOf]; exact h2
  · intro id2; rw [updateLog_orderedIds, updateLog_keysOf]; exact h3 id2
  · rw [updateLog_orderedIds, updateLog_logs_length]; exact h4
  · rw [updateLog_orderedIds]; exact h5
  · rw [updateLog_orderedIds]; exact h6

theorem addRequest_good (s : StoreState) (e : RequestStartEvent)
    (hg : goodState s) (hfresh : e.id ∉ keysOf s.logs) (hne : ¬ e.id = "") :
    goodState (addRequest s e) := by
  obtain ⟨⟨hnd, hndk, hiff, hlen⟩, hcap, hids_ne⟩ := hg
  have hmemIds : e.id ∉ s.orderedIds := fun hm => hfresh ((hiff e.id).mp hm)
  have hHasF : mapHas s.logs e.id = false := by
    cases hb : mapHas s.logs e.id with
    | false => rfl
    | true => exact absurd ((mapHas_iff_mem_keys _ _).mp hb) hfresh
  have hkeys1 : keysOf (mapSet s.logs e.id (newLogOf e)) = keysOf s.logs ++ [e.id] :=
    keysOf_mapSet_of_not_has _ _ _ hHasF
  have hlen1 : (mapSet s.logs e.id (newLogOf e)).length = s.logs.length + 1 :=
    length_mapSet_of_not_has _ _ _ hHasF
  have hnd1 : (e.id :: s.orderedIds).Nodup := List.nodup_cons.mpr ⟨hmemIds, hnd⟩
  have hndk1 : (keysOf (mapSet s.logs e.id (newLogOf e))).Nodup := by
    rw [hkeys1]
    exact List.Nodup.append hndk (List.nodup_singleton _)
      (fun a ha hb => hfresh ((List.mem_singleton.mp hb) ▸ ha))
  have hiff1 : ∀ id, id ∈ e.id :: s.orderedIds ↔ id ∈ keysOf (mapSet s.logs e.id (newLogOf e)) := by
    intro id
    rw [hkeys1, List.mem_cons, List.mem_append, List.mem_singleton, hiff id]
    tauto
  have hleneq1 : (e.id :: s.orderedIds).length = (mapSet s.logs e.id (newLogOf e)).length := by
    rw [List.length_cons, hlen1, hlen]
  rw [goodState, consistent, addRequest_orderedIds, addRequest_logs]
  by_cases hc : (e.id :: s.orderedIds).length ≤ MAX_LOGS
  · rw [enforceCap_of_le _ _ hc]
    refine ⟨⟨hnd1, hndk1, hiff1, hleneq1⟩, hc, ?_⟩
    intro id hid
    rcases List.mem_cons.mp hid with h1 | h1
    · exact h1 ▸ hne
    · exact hids_ne id h1
  · have hs : (e.id :: s.orderedIds).length = MAX_LOGS + 1 := by
      rw [List.length_cons]; rw [List.length_cons] at hc; omega
    have hneNil : s.orderedIds ≠ [] := by
      intro hnil; rw [hnil] at hs; simp [MAX_LOGS] at hs
    have hlast : (e.id :: s.orderedIds).getLast? = some (s.orderedIds.getLast hneNil) := by
      rw [List.getLast?_eq_getLast_of_ne_nil (List.cons_ne_nil _ _), List.getLast_cons hneNil]
    have hbmem : s.orderedIds.getLast hneNil ∈ s.orderedIds := List.getLast_mem hneNil
    have hbne : ¬ s.orderedIds.getLast hneNil = "" := hids_ne _ hbmem
    rw [enforceCap_of_succ_getLast _ _ _ hs hlast, if_neg hbne]
    -- decompose ids1 as dropLast ++ [last]
    have hdec : (e.id :: s.orderedIds).dropLast ++ [s.orderedIds.getLast hneNil]
        = e.id :: s.orderedIds :=
      List.dropLast_append_getLast? _ (by rw [hlast]; rfl)
    have hnd2 : (e.id :: s.orderedIds).dropLast.Nodup :=
      hnd1.sublist (List.dropLast_sublist _)
    have hbnotin : s.orderedIds.getLast hneNil ∉ (e.id :: s.orderedIds).dropLast := by
      intro hbin
      have := hnd1
      rw [← hdec] at this
      rcases List.nodup_append.mp this with ⟨_, _, hdisj⟩
      exact hdisj hbin (List.mem_singleton.mpr rfl)
    have hmem2 : ∀ id, id ∈ (e.id :: s.orderedIds).dropLast ↔
        id ∈ e.id :: s.orderedIds ∧ ¬ id = s.orderedIds.getLast hneNil := by
      intro id
      constructor
      · intro hid
        refine ⟨?_, ?_⟩
        · rw [← hdec]; exact List.mem_append.mpr (Or.inl hid)
        · intro hEq; exact hbnotin (hEq ▸ hid)
      · rintro ⟨hid, hne2⟩
        rw [← hdec] at hid
        rcases List.mem_append.mp hid with h1 | h1
        · exact h1
        · exact absurd (List.mem_singleton.mp h1) hne2
    have hkeys2 : keysOf (mapDelete (mapSet s.logs e.id (newLogOf e))
        (s.orderedIds.getLast hneNil))
        = (keysOf (mapSet s.logs e.id (newLogOf e))).filter
            (fun x => ¬ x = s.orderedIds.getLast hneNil) :=
      keysOf_mapDelete _ _
    have hmemk2 : ∀ id, id ∈ keysOf (mapDelete (mapSet s.logs e.id (newLogOf e))
        (s.orderedIds.getLast hneNil)) ↔
        id ∈ keysOf (mapSet s.logs e.id (newLogOf e)) ∧
          ¬ id = s.orderedIds.getLast hneNil := by
      intro id
      rw [hkeys2, List.mem_filter]
      simp
    have hbkeys : s.orderedIds.getLast hneNil ∈ keysOf (mapSet s.logs e.id (newLogOf e)) :=
      (hiff1 _).mp (List.mem_cons_of_mem _ hbmem)
    have hlog2len : (mapDelete (mapSet s.logs e.id (newLogOf e))
          (s.orderedIds.getLast hneNil)).length + 1
        = (mapSet s.logs e.id (newLogOf e)).length :=
      length_mapDelete_of_mem _ _ hndk1 hbkeys
    refine ⟨⟨hnd2, ?_, ?_, ?_⟩, ?_, ?_⟩
    · show (keysOf (mapDelete (mapSet s.logs e.id (newLogOf e))
        (s.orderedIds.getLast hneNil))).Nodup
      rw [hkeys2]; exact hndk1.filter _
    · intro id
      show id ∈ (e.id :: s.orderedIds).dropLast ↔
        id ∈ keysOf (mapDelete (mapSet s.logs e.id (newLogOf e))
          (s.orderedIds.getLast hneNil))
      rw [hmem2 id, hmemk2 id, hiff1 id]
    · show (e.id :: s.orderedIds).dropLast.length
        = (mapDelete (mapSet s.logs e.id (newLogOf e))
            (s.orderedIds.getLast hneNil)).length
      rw [List.length_dropLast, hs]
      omega
    · show (e.id :: s.orderedIds).dropLast.length ≤ MAX_LOGS
      rw [List.length_dropLast, hs]
      omega
    · intro id hid
      have hin1 : id ∈ e.id :: s.orderedIds := ((hmem2 id).mp hid).1
      rcases List.mem_cons.mp hin1 with h1 | h1
      · exact h1 ▸ hne
      · exact hids_ne id h1

theorem addRequest_keys_cases (s : StoreState) (e : RequestStartEvent) :
    ∀ k, k ∈ keysOf (addRequest s e).logs → k = e.id ∨ k ∈ keysOf s.logs := by
  intro k hk
  rw [addRequest_logs] at hk
  exact keysOf_mapSet_subset _ _ _ k (keysOf_enforceCapAux_subset _ _ _ k hk)

theorem step_good_of_not_start (s : StoreState) (e : StoreEvent) (he : isStart e = false)
    (hg : goodState s) : goodState (step s e) := by
  cases e with
  | requestStart ev => simp [isStart] at he
  | requestBody id body => exact goodState_updateLog s id _ hg
  | responseHeaders id code msg hs => exact goodState_updateLog s id _ hg
  | responseComplete id body dur => exact goodState_updateLog s id _ hg
  | requestError id msg dur => exact goodState_updateLog s id _ hg
  | timingUpdate id t => exact goodState_updateLog s id _ hg
  | sizeUpdate id sz => exact goodState_updateLog s id _ hg

theorem step_keysOf_of_not_start (s : StoreState) (e : StoreEvent) (he : isStart e = false) :
    keysOf (step s e).logs = keysOf s.logs := by
  cases e with
  | requestStart ev => simp [isStart] at he
  | requestBody id body => exact updateLog_keysOf s id _
  | responseHeaders id code msg hs => exact updateLog_keysOf s id _
  | responseComplete id body dur => exact updateLog_keysOf s id _
  | requestError id msg dur => exact updateLog_keysOf s id _
  | timingUpdate id t => exact updateLog_keysOf s id _
  | sizeUpdate id sz => exact updateLog_keysOf s id _

theorem startIds_cons_not_start (e : StoreEvent) (tr : List StoreEvent)
    (he : isStart e = false) : startIds (e :: tr) = startIds tr := by
  cases e with
  | requestStart ev => simp [isStart] at he
  | requestBody id body => rfl
  | responseHeaders id code msg hs => rfl
  | responseComplete id body dur => rfl
  | requestError id msg dur => rfl
  | timingUpdate id t => rfl
  | sizeUpdate id sz => rfl

theorem foldl_step_good (tr : List StoreEvent) :
    ∀ (s : StoreState) (seen : List String),
    goodState s →
    (∀ k, k ∈ keysOf s.logs → k ∈ seen) →
    (startIds tr).Nodup →
    (∀ id ∈ startIds tr, id ∉ seen ∧ ¬ id = "") →
    goodState (tr.foldl step s) := by
  induction tr with
  | nil => intro s seen hg _ _ _; exact hg
  | cons e tr ih =>
    intro s seen hg hkeys hnd hfresh
    rw [List.foldl_cons]
    by_cases hstart : isStart e = true
    · cases e with
      | requestStart ev =>
        have hmem : ev.id ∈ startIds (StoreEvent.requestStart ev :: tr) := by
          rw [startIds]; exact List.mem_cons_self _ _
        obtain ⟨hseen, hne⟩ := hfresh _ hmem
        have hfresh2 : ev.id ∉ keysOf s.logs := fun hk => hseen (hkeys _ hk)
        apply ih (step s (.requestStart ev)) (ev.id :: seen)
          (addRequest_good s ev hg hfresh2 hne)
        · intro k hk
          rcases addRequest_keys_cases s ev k hk with h1 | h1
          · exact h1 ▸ List.mem_cons_self _ _
          · exact List.mem_cons_of_mem _ (hkeys k h1)
        · rw [startIds] at hnd
          exact (List.nodup_cons.mp hnd).2
        · intro id hid
          rw [startIds] at hnd
          have hidfull : id ∈ startIds (StoreEvent.requestStart ev :: tr) := by
            rw [startIds]; exact List.mem_cons_of_mem _ hid
          obtain ⟨hs1, hs2⟩ := hfresh id hidfull
          refine ⟨?_, hs2⟩
          intro hmem2
          rcases List.mem_cons.mp hmem2 with h1 | h1
          · exact (List.nodup_cons.mp hnd).1 (h1 ▸ hid)
          · exact hs1 h1
      | requestBody id body => simp [isStart] at hstart
      | responseHeaders id code msg hs => simp [isStart] at hstart
      | responseComplete id body dur => simp [isStart] at hstart
      | requestError id msg dur => simp [isStart] at hstart
      | timingUpdate id t => simp [isStart] at hstart
      | sizeUpdate id sz => simp [isStart] at hstart
    · have he : isStart e = false := by
        cases hb : isStart e with
        | false => rfl
        | true => exact absurd hb hstart
      apply ih (step s e) seen (step_good_of_not_start s e he hg)
      · intro k hk
        rw [step_keysOf_of_not_start s e he] at hk
        exact hkeys k hk
      · rwa [startIds_cons_not_start e tr he] at hnd
      · intro id hid
        exact hfresh id (by rw [startIds_cons_not_start e tr he]; exact hid)

theorem length_filterMap_of_forall_isSome {α β : Type} (l : List α) (f : α → Option β)
    (h : ∀ x ∈ l, (f x).isSome) : (l.filterMap f).length = l.length := by
  induction l with
  | nil => rfl
  | cons x l ih =>
    have hx := h x (List.mem_cons_self _ _)
    cases hfx : f x with
    | none => rw [hfx] at hx; simp at hx
    | some y =>
      rw [List.filterMap_cons, hfx, List.length_cons, List.length_cons,
        ih (fun z hz => h z (List.mem_cons_of_mem _ hz))]

theorem getLogs_length_of_consistent (s : StoreState) (h : consistent s) :
    (getLogs s).length = s.orderedIds.length ∧ (getLogs s).length = s.logs.length := by
  obtain ⟨_, _, hiff, hlen⟩ := h
  have h1 : (getLogs s).length = s.orderedIds.length := by
    apply length_filterMap_of_forall_isSome
    intro id hid
    exact mapGet_isSome_of_mapHas s.logs id ((mapHas_iff_mem_keys _ _).mpr ((hiff id).mp hid))
  exact ⟨h1, by rw [h1, hlen]⟩

/-- C9 (confirmed): starting from the empty store, after any sequence of
events whose request-start ids are fresh uuids (pairwise distinct and
nonempty), the ordered id list and the id-to-record Map describe the same
set — both are duplicate-free, an id is in the list exactly when it is a
key of the Map, and `getAll()` returns exactly one record per stored id, so
its length equals both the list length and the Map size. `clear()` also
preserves the relation (both sides become empty). -/
theorem store_ids_map_in_sync :
    (∀ tr : List StoreEvent, GoodTrace tr →
      consistent (applyTrace tr) ∧
      (getLogs (applyTrace tr)).length = (applyTrace tr).orderedIds.length ∧
      (getLogs (applyTrace tr)).length = (applyTrace tr).logs.length)
    ∧ (∀ s : StoreState, consistent (clearStore s).1) := by
  constructor
  · intro tr hgt
    have hg : goodState (applyTrace tr) := by
      apply foldl_step_good tr emptyStore []
      · exact ⟨⟨List.nodup_nil, List.nodup_nil,
          by intro id; simp [emptyStore, keysOf], by simp [emptyStore]⟩,
          by simp [emptyStore, MAX_LOGS], by simp [emptyStore]⟩
      · intro k hk; simp [emptyStore, keysOf] at hk
      · exact hgt.1
      · intro id hid; exact ⟨by simp, hgt.2 id hid⟩
    exact ⟨hg.1, (getLogs_length_of_consistent _ hg.1).1,
      (getLogs_length_of_consistent _ hg.1).2⟩
  · intro s
    exact ⟨List.nodup_nil, List.nodup_nil,
      by intro id; simp [clearStore, keysOf], rfl⟩

theorem store_ids_map_in_sync_witness :
    consistent (applyTrace [.requestStart syncStart]) ∧
    (getLogs (applyTrace [.requestStart syncStart])).length
      = (applyTrace [.requestStart syncStart]).logs.length :=
  ⟨(store_ids_map_in_sync.1 [.requestStart syncStart] ⟨by decide, by decide⟩).1,
    (store_ids_map_in_sync.1 [.requestStart syncStart] ⟨by decide, by decide⟩).2.2⟩

theorem statusAt_updateLog (s : StoreState) (id id2 : String) (f : RequestLog → RequestLog)
    (hf : ∀ l, (f l).status = l.status) :
    statusAt (updateLog s id f) id2 = statusAt s id2 := by
  by_cases h : id2 = id
  · subst h
    simp only [statusAt, mapGet_updateLog_self]
    cases hg : mapGet s.logs id2 with
    | none => rfl
    | some l => simp [hf]
  · rw [statusAt, mapGet_updateLog_ne _ _ _ _ h]; rfl

/-- C2 (amended): every record enters the store as `Pending`; its status is
changed only by `response-headers` (to the integer HTTP code) and
`request-error` (to `Error`) events carrying its id — body, completion,
timing and size events never change any status, and non-start events for a
different id leave the record untouched. The store applies the two
status-writing handlers unconditionally, so in the engine's normal flow the
status transitions exactly once, but a `request-error` arriving after
`response-headers` (transport failure after the headers were received)
transitions the status a second time, from the HTTP code to `Error`. -/
theorem store_status_lifecycle :
    (∀ (s : StoreState) (e : RequestStartEvent),
        s.orderedIds.length ≤ MAX_LOGS → e.id ∉ s.orderedIds →
        statusAt (step s (.requestStart e)) e.id = some .pending)
    ∧ (∀ (s : StoreState) (id body : String) (id2 : String),
        statusAt (step s (.requestBody id body)) id2 = statusAt s id2)
    ∧ (∀ (s : StoreState) (id body : String) (dur : Int) (id2 : String),
        statusAt (step s (.responseComplete id body dur)) id2 = statusAt s id2)
    ∧ (∀ (s : StoreState) (id : String) (t : TimingBreakdown) (id2 : String),
        statusAt (step s (.timingUpdate id t)) id2 = statusAt s id2)
    ∧ (∀ (s : StoreState) (id : String) (sz : SizeInfo) (id2 : String),
        statusAt (step s (.sizeUpdate id sz)) id2 = statusAt s id2)
    ∧ (∀ (s : StoreState) (id : String) (code : Int) (msg : String) (hs : Headers),
        mapHas s.logs id = true →
        statusAt (step s (.responseHeaders id code msg hs)) id = some (.code code))
    ∧ (∀ (s : StoreState) (id msg : String) (dur : Int),
        mapHas s.logs id = true →
        statusAt (step s (.requestError id msg dur)) id = some .err)
    ∧ (∀ (s : StoreState) (ev : StoreEvent) (id2 : String),
        isStart ev = false → ¬ evId ev = id2 →
        mapGet (step s ev).logs id2 = mapGet s.logs id2) := by
  refine ⟨?_, ?_, ?_, ?_, ?_, ?_, ?_, ?_⟩
  · intro s e hlen hmem
    show statusAt (addRequest s e) e.id = some .pending
    rw [statusAt, addRequest_get_self s e hlen hmem]
    rfl
  · intro s id body id2
    exact statusAt_updateLog s id id2 _ (fun l => rfl)
  · intro s id body dur id2
    exact statusAt_updateLog s id id2 _ (fun l => rfl)
  · intro s id t id2
    exact statusAt_updateLog s id id2 _ (fun l => rfl)
  · intro s id sz id2
    exact statusAt_updateLog s id id2 _ (fun l => rfl)
  · intro s id code msg hs hhas
    show statusAt (updateLog s id _) id = some (.code code)
    rw [statusAt, mapGet_updateLog_self]
    have := mapGet_isSome_of_mapHas s.logs id hhas
    cases hg : mapGet s.logs id with
    | none => rw [hg] at this; simp at this
    | some l => rfl
  · intro s id msg dur hhas
    show statusAt (updateLog s id _) id = some .err
    rw [statusAt, mapGet_updateLog_self]
    have := mapGet_isSome_of_mapHas s.logs id hhas
    cases hg : mapGet s.logs id with
    | none => rw [hg] at this; simp at this
    | some l => rfl
  · intro s ev id2 hstart hne
    cases ev with
    | requestStart e => simp [isStart] at hstart
    | requestBody id body => exact mapGet_updateLog_ne s id id2 _ (fun h => hne h.symm)
    | responseHeaders id code msg hs => exact mapGet_updateLog_ne s id id2 _ (fun h => hne h.symm)
    | responseComplete id body dur => exact mapGet_updateLog_ne s id id2 _ (fun h => hne h.symm)
    | requestError id msg dur => exact mapGet_updateLog_ne s id id2 _ (fun h => hne h.symm)
    | timingUpdate id t => exact mapGet_updateLog_ne s id id2 _ (fun h => hne h.symm)
    | sizeUpdate id sz => exact mapGet_updateLog_ne s id id2 _ (fun h => hne h.symm)

/-- C2 counterexample: on the concrete trace `start, headers 200, error`,
the status reaches the terminal value `200` and is then overwritten to
`Error` by the later event — two transitions out of `Pending`, refuting
"transitions exactly once to a terminal value" and the claim that no event
mutates a record after its exchange reached a terminal status. -/
theorem store_status_double_transition :
    statusAt (applyTrace cexHeadersTrace) "a" = some (.code 200) ∧
    statusAt (applyTrace cexErrorTrace) "a" = some .err ∧
    RequestStatus.code 200 ≠ .pending ∧
    (RequestStatus.code 200 : RequestStatus) ≠ .err := by
  refine ⟨by decide, by decide, by decide, by decide⟩

theorem store_status_lifecycle_witness :
    statusAt (step emptyStore (.requestStart cexStart)) "a" = some .pending ∧
    statusAt (step (applyTrace [.requestStart cexStart])
        (.responseHeaders "a" 200 "OK" [])) "a" = some (.code 200) ∧
    statusAt (step (applyTrace [.requestStart cexStart])
        (.requestError "a" "boom" 1)) "a" = some .err ∧
    mapGet (step (applyTrace [.requestStart cexStart])
        (.requestBody "b" "x")).logs "a"
      = mapGet (applyTrace [.requestStart cexStart]).logs "a" :=
  ⟨store_status_lifecycle.1 emptyStore cexStart (by decide) (by decide),
    store_status_lifecycle.2.2.2.2.2.1 (applyTrace [.requestStart cexStart])
      "a" 200 "OK" [] (by decide),
    store_status_lifecycle.2.2.2.2.2.2.1 (applyTrace [.requestStart cexStart])
      "a" "boom" 1 (by decide),
    store_status_lifecycle.2.2.2.2.2.2.2 (applyTrace [.requestStart cexStart])
      (.requestBody "b" "x") "a" (by decide) (by decide)⟩

/-- C6 (confirmed): after `clear()` the collection is empty — `getAll()`
returns the empty sequence — and every currently registered subscriber
receives exactly one notification carrying the empty snapshot. -/
theorem clear_empties_and_notifies_empty :
    ∀ s : StoreState,
      getLogs (clearStore s).1 = [] ∧
      (clearStore s).2 = s.listeners.map (fun l => (l, [])) := by
  intro s
  constructor
  · rfl
  · rfl

/-- C1 counterexample: with one subscriber that throws while handling
`request-start`, the intercepted call raises the subscriber's exception and
the original transport call is never made, whereas with no subscriber the
same call returns the original result — the observer failure is not
isolated from the call site. -/
theorem subscriber_throw_reaches_caller :
    interceptedRequest [fun _ => .error "boom"] cexStart (fun _ => .ok 42)
      = .error "boom" ∧
    interceptedRequest [] cexStart (fun _ => .ok 42) = .ok 42 :=
  ⟨rfl, rfl⟩

/-- C1 (amended): subscriber exceptions on the event channel are not
isolated. When every subscriber handles the emitted `request-start` without
throwing, the intercepted call proceeds and returns exactly the original
result; but when a subscriber throws, its exception propagates out of
`emit` to the intercepted call site before the underlying request is made,
and the subscribers after it are not run. (Only the store's snapshot
listeners are isolated, by the try/catch in `notifyListeners`.) -/
theorem subscriber_failure_propagation :
    (∀ (subs : List Subscriber) (e : RequestStartEvent)
        (k : Unit → Except String Int),
      (∀ s ∈ subs, s e = .ok ()) → interceptedRequest subs e k = k ())
    ∧ (∀ (pre post : List Subscriber) (msg : String) (e : RequestStartEvent)
        (k : Unit → Except String Int),
      (∀ s ∈ pre, s e = .ok ()) →
      interceptedRequest (pre ++ (fun _ => Except.error msg) :: post) e k
        = .error msg) := by
  constructor
  · intro subs e k hok
    have hemit : emitAll subs e = .ok () := by
      induction subs with
      | nil => rfl
      | cons s ss ih =>
        rw [emitAll, hok s (List.mem_cons_self _ _)]
        exact ih (fun x hx => hok x (List.mem_cons_of_mem _ hx))
    rw [interceptedRequest, hemit]
  · intro pre post msg e k hok
    have hemit : emitAll (pre ++ (fun _ => Except.error msg) :: post) e
        = .error msg := by
      induction pre with
      | nil => rfl
      | cons s ss ih =>
        rw [List.cons_append, emitAll, hok s (List.mem_cons_self _ _)]
        exact ih (fun x hx => hok x (List.mem_cons_of_mem _ hx))
    rw [interceptedRequest, hemit]

theorem subscriber_failure_propagation_witness :
    interceptedRequest [fun _ => .ok ()] cexStart (fun _ => .ok 7) = .ok 7 ∧
    interceptedRequest ([fun _ => .ok ()] ++ (fun _ => Except.error "x") :: [])
      cexStart (fun _ => .ok 7) = .error "x" :=
  ⟨subscriber_failure_propagation.1 [fun _ => .ok ()] cexStart (fun _ => .ok 7)
      (fun s hs => by rw [List.mem_singleton] at hs; subst hs; rfl),
    subscriber_failure_propagation.2 [fun _ => .ok ()] [] "x" cexStart
      (fun _ => .ok 7)
      (fun s hs => by rw [List.mem_singleton] at hs; subst hs; rfl)⟩

/-- C3 counterexample: at a concrete completed body, the `once` and `pipe`
pathways emit only `timing-update` and `response-complete` — no
`size-update` — while the claim asserts all three pathways emit
`size-update` as well (only the `on` pathway does). -/
theorem once_pipe_miss_size_update :
    (onceEndEvents "a" 0 ⟨0, 0, 0⟩ 10 ["hi"]).map kindOf
        = [.timing, .complete] ∧
    (pipeEndEvents "a" 0 ⟨0, 0, 0⟩ 10 ["hi"]).map kindOf
        = [.timing, .complete] ∧
    (onEndEvents "a" 0 ⟨0, 0, 0⟩ 10 ["hi"] 0 2 none).map kindOf
        = [.timing, .size, .complete] ∧
    EvKind.size ∉ (onceEndEvents "a" 0 ⟨0, 0, 0⟩ 10 ["hi"]).map kindOf ∧
    EvKind.size ∉ (pipeEndEvents "a" 0 ⟨0, 0, 0⟩ 10 ["hi"]).map kindOf :=
  ⟨rfl, rfl, rfl, by decide, by decide⟩

/-- C3 (amended): on completion of the response body, the repeated
subscription (`on`) pathway emits `timing-update`, `size-update` and
`response-complete` for the request id; the one-shot (`once`) and `pipe`
pathways emit only `timing-update` and `response-complete` for that id —
they do not emit `size-update`. -/
theorem end_handler_event_kinds :
    ∀ (id : String) (startTime : Int) (t : TimingState) (endTime : Int)
      (chunks : List String) (tr tot : Int) (enc : Option String),
      (onEndEvents id startTime t endTime chunks tr tot enc).map kindOf
          = [.timing, .size, .complete] ∧
      (onEndEvents id startTime t endTime chunks tr tot enc).map evId
          = [id, id, id] ∧
      (onceEndEvents id startTime t endTime chunks).map kindOf
          = [.timing, .complete] ∧
      (onceEndEvents id startTime t endTime chunks).map evId = [id, id] ∧
      (pipeEndEvents id startTime t endTime chunks).map kindOf
          = [.timing, .complete] ∧
      (pipeEndEvents id startTime t endTime chunks).map evId = [id, id] :=
  fun _ _ _ _ _ _ _ _ => ⟨rfl, rfl, rfl, rfl, rfl, rfl⟩

/-- C8 (confirmed): in every `timing-update` the three end handlers emit,
the dns, tcp, ttfb and download phases sum exactly to the total, for every
combination of present (nonzero) or absent (zero) intermediate timestamps:
the `||` fallback chains telescope to `downloadEnd - startTime`. -/
theorem timing_fields_sum_to_total :
    ∀ (startTime : Int) (t : TimingState) (endTime : Int),
      ((computeTiming startTime t endTime).dns
        + (computeTiming startTime t endTime).tcp
        + (computeTiming startTime t endTime).ttfb
        + (computeTiming startTime t endTime).download
        = (computeTiming startTime t endTime).total) ∧
      (∀ id chunks tr tot enc,
        (onEndEvents id startTime t endTime chunks tr tot enc).head?
          = some (.timingUpdate id (computeTiming startTime t endTime))) ∧
      (∀ id chunks, (onceEndEvents id startTime t endTime chunks).head?
          = some (.timingUpdate id (computeTiming startTime t endTime))) ∧
      (∀ id chunks, (pipeEndEvents id startTime t endTime chunks).head?
          = some (.timingUpdate id (computeTiming startTime t endTime))) := by
  intro startTime t endTime
  refine ⟨?_, fun id chunks tr tot enc => rfl, fun id chunks => rfl,
    fun id chunks => rfl⟩
  unfold computeTiming tsOr
  by_cases h1 : t.dnsEnd = 0 <;> by_cases h2 : t.tcpEnd = 0 <;>
    by_cases h3 : t.ttfbEnd = 0 <;> simp [h1, h2, h3]

/-- C10 (confirmed): `buildUrl` appends `:port` exactly when the port is
truthy and not strictly equal to the numbers 80 or 443; in particular an
http request whose options carry numeric port 443 is recorded without a
port, while the same port as the string "443" is included. -/
theorem buildUrl_port_iff :
    (∀ (o : RequestOptions) (protocol : Proto),
      buildUrl o protocol
        = protoChars protocol ++ "://".data
            ++ (jsOrStr o.hostname (jsOrStr o.host "localhost")).data
            ++ (if specIncludesPort o.port then ':' :: portChars o.port else [])
            ++ (jsOrStr o.path "/").data)
    ∧ buildUrl ⟨some "h", none, .num 443, some "/p"⟩ .http = "http://h/p".data
    ∧ buildUrl ⟨some "h", none, .str "443", some "/p"⟩ .http
        = "http://h:443/p".data := by
  refine ⟨?_, by decide, by decide⟩
  intro o protocol
  unfold specIncludesPort
  rw [show buildUrl o protocol
      = (if (portTruthy o.port && !(o.port == JsPort.num 80)
            && !(o.port == JsPort.num 443)) = true then
          protoChars protocol ++ "://".data
            ++ (jsOrStr o.hostname (jsOrStr o.host "localhost")).data
            ++ ':' :: portChars o.port
        else
          protoChars protocol ++ "://".data
            ++ (jsOrStr o.hostname (jsOrStr o.host "localhost")).data)
        ++ (jsOrStr o.path "/").data from rfl]
  by_cases hc : (portTruthy o.port && !(o.port == JsPort.num 80)
      && !(o.port == JsPort.num 443)) = true
  · rw [if_pos hc, if_pos hc]
  · rw [if_neg hc, if_neg hc]
    simp [List.append_assoc]

/-- C5 (confirmed): `install()` is idempotent — a second call changes
neither the entry points nor the interception state; `uninstall()` with no
prior install is a no-op; and from a clean state, uninstall after install
restores `http.request`, `https.request`, `http.get`, `https.get` and the
global fetch (when one was present) to exactly their pre-install values and
the interception state to its initial value. -/
theorem install_uninstall_roundtrip :
    (∀ (g : EntryPoints) (st : PatchState),
      startInterceptor (startInterceptor g st).1 (startInterceptor g st).2
        = startInterceptor g st)
    ∧ (∀ (g : EntryPoints) (st : PatchState), st.isIntercepting = false →
      stopInterceptor g st = (g, st))
    ∧ (∀ (g : EntryPoints) (st : PatchState),
      st.isIntercepting = false → st.originalFetch = none →
      stopInterceptor (startInterceptor g st).1 (startInterceptor g st).2
        = (g, initialPatchState)) := by
  refine ⟨?_, ?_, ?_⟩
  · intro g st
    by_cases h : st.isIntercepting
    · simp [startInterceptor, h]
    · simp only [startInterceptor, h, if_false]
      rfl
  · intro g st h
    simp [stopInterceptor, h]
  · intro g st h hf
    obtain ⟨gr, gsr, gg, gsg, gf⟩ := g
    simp only [startInterceptor, h, if_false]
    cases gf with
    | none => simp [stopInterceptor, hf, initialPatchState, Option.getD]
    | some f => simp [stopInterceptor, hf, initialPatchState, Option.getD]

theorem install_uninstall_roundtrip_witness :
    stopInterceptor ⟨.base 0, .base 1, .base 2, .base 3, some (.base 4)⟩
        initialPatchState
      = (⟨.base 0, .base 1, .base 2, .base 3, some (.base 4)⟩,
        initialPatchState) ∧
    stopInterceptor
        (startInterceptor ⟨.base 0, .base 1, .base 2, .base 3, some (.base 4)⟩
          initialPatchState).1
        (startInterceptor ⟨.base 0, .base 1, .base 2, .base 3, some (.base 4)⟩
          initialPatchState).2
      = (⟨.base 0, .base 1, .base 2, .base 3, some (.base 4)⟩,
        initialPatchState) :=
  ⟨install_uninstall_roundtrip.2.1
      ⟨.base 0, .base 1, .base 2, .base 3, some (.base 4)⟩ initialPatchState rfl,
    install_uninstall_roundtrip.2.2
      ⟨.base 0, .base 1, .base 2, .base 3, some (.base 4)⟩ initialPatchState rfl rfl⟩

theorem nlFree_nil : NlFree [] := List.not_mem_nil _

theorem nlFree_singleton {c : Char} (h : c ≠ '\n') : NlFree [c] := by
  intro hm; rw [List.mem_singleton] at hm; exact h hm.symm

theorem nlFree_cons {c : Char} {l : List Char} (hc : c ≠ '\n') (hl : NlFree l) :
    NlFree (c :: l) := by
  intro hm
  rcases List.mem_cons.mp hm with h | h
  · exact hc h.symm
  · exact hl h

theorem nlFree_append {a b : List Char} (ha : NlFree a) (hb : NlFree b) :
    NlFree (a ++ b) := by
  intro hm
  rcases List.mem_append.mp hm with h | h
  · exact ha h
  · exact hb h

theorem nlFree_flatten {ls : List (List Char)} (h : ∀ x ∈ ls, NlFree x) :
    NlFree ls.flatten := by
  induction ls with
  | nil => exact nlFree_nil
  | cons x xs ih =>
    rw [List.flatten_cons]
    exact nlFree_append (h x (List.mem_cons_self _ _))
      (ih fun y hy => h y (List.mem_cons_of_mem _ hy))

theorem digitChar_ne_nl (n : Nat) : digitChar n ≠ '\n' := by
  unfold digitChar; split <;> decide

theorem hexDigit_ne_nl (n : Nat) : hexDigit n ≠ '\n' := by
  unfold hexDigit; split <;> decide

theorem natDigits_nlFree (n : Nat) : NlFree (natDigits n) := by
  unfold natDigits
  by_cases h : n < 10
  · rw [dif_pos h]; exact nlFree_singleton (digitChar_ne_nl n)
  · rw [dif_neg h]
    exact nlFree_append (natDigits_nlFree (n / 10))
      (nlFree_singleton (digitChar_ne_nl _))
termination_by n
decreasing_by exact Nat.div_lt_self (by omega) (by omega)

theorem renderInt_nlFree (n : Int) : NlFree (renderInt n) := by
  unfold renderInt
  by_cases h : n < 0
  · rw [if_pos h]; exact nlFree_cons (by decide) (natDigits_nlFree _)
  · rw [if_neg h]; exact natDigits_nlFree _

theorem escapeChar_nlFree (c : Char) : NlFree (escapeChar c) := by
  unfold escapeChar
  split_ifs with h1 h2 h3 h4 h5 h6 h7 h8
  · decide
  · decide
  · decide
  · decide
  · decide
  · decide
  · decide
  · exact nlFree_cons (by decide) (nlFree_cons (by decide) (nlFree_cons (by decide)
      (nlFree_cons (by decide) (nlFree_cons (hexDigit_ne_nl _)
        (nlFree_singleton (hexDigit_ne_nl _))))))
  · exact nlFree_singleton h3

theorem serializeStr_nlFree (s : String) : NlFree (serializeStr s) := by
  unfold serializeStr
  refine nlFree_cons (by decide) (nlFree_append ?_ (nlFree_singleton (by decide)))
  apply nlFree_flatten
  intro x hx
  rw [List.mem_map] at hx
  obtain ⟨c, _, rfl⟩ := hx
  exact escapeChar_nlFree c

theorem sepComma_nlFree :
    ∀ ls : List (List Char), (∀ x ∈ ls, NlFree x) → NlFree (sepComma ls)
  | [], _ => nlFree_nil
  | [x], h => h x (List.mem_singleton.mpr rfl)
  | x :: y :: ys, h =>
    nlFree_append (h x (List.mem_cons_self _ _))
      (nlFree_cons (by decide)
        (sepComma_nlFree (y :: ys) (fun z hz => h z (List.mem_cons_of_mem _ hz))))

theorem serializeField_nlFree (k : String) (v : List Char) (hv : NlFree v) :
    NlFree (serializeField k v) :=
  nlFree_append (serializeStr_nlFree k) (nlFree_cons (by decide) hv)

theorem serializeObjFields_nlFree (fs : List (List Char))
    (h : ∀ x ∈ fs, NlFree x) : NlFree (serializeObjFields fs) :=
  nlFree_cons (by decide)
    (nlFree_append (sepComma_nlFree fs h) (nlFree_singleton (by decide)))

theorem serializeStatus_nlFree (st : RequestStatus) : NlFree (serializeStatus st) := by
  cases st with
  | pending => exact serializeStr_nlFree _
  | err => exact serializeStr_nlFree _
  | code n => exact renderInt_nlFree n

theorem serializeHeaders_nlFree (hs : Headers) : NlFree (serializeHeaders hs) := by
  apply serializeObjFields_nlFree
  intro x hx
  rw [List.mem_map] at hx
  obtain ⟨p, _, rfl⟩ := hx
  exact serializeField_nlFree _ _ (serializeStr_nlFree _)

theorem serializeTiming_nlFree (t : TimingBreakdown) : NlFree (serializeTiming t) := by
  apply serializeObjFields_nlFree
  intro x hx
  simp only [List.mem_cons] at hx
  rcases hx with rfl | rfl | rfl | rfl | rfl | hx
  · exact serializeField_nlFree _ _ (renderInt_nlFree _)
  · exact serializeField_nlFree _ _ (renderInt_nlFree _)
  · exact serializeField_nlFree _ _ (renderInt_nlFree _)
  · exact serializeField_nlFree _ _ (renderInt_nlFree _)
  · exact serializeField_nlFree _ _ (renderInt_nlFree _)
  · simp at hx

theorem serializeSize_nlFree (sz : SizeInfo) : NlFree (serializeSize sz) := by
  apply serializeObjFields_nlFree
  intro x hx
  simp only [List.mem_cons] at hx
  rcases hx with rfl | rfl | rfl | hx
  · exact serializeField_nlFree _ _ (renderInt_nlFree _)
  · exact serializeField_nlFree _ _ (renderInt_nlFree _)
  · apply serializeField_nlFree
    cases sz.encoding with
    | some s => exact serializeStr_nlFree s
    | none => decide
  · simp at hx

theorem serializeLog_nlFree (l : RequestLog) : NlFree (serializeLog l) := by
  apply serializeObjFields_nlFree
  intro x hx
  rcases List.mem_append.mp hx with hx | hx
  · rcases List.mem_append.mp hx with hx | hx
    · rcases List.mem_append.mp hx with hx | hx
      · simp only [List.mem_cons] at hx
        rcases hx with rfl|rfl|rfl|rfl|rfl|rfl|rfl|rfl|rfl|rfl|rfl|rfl|rfl|hx
        · exact serializeField_nlFree _ _ (serializeStr_nlFree _)
        · exact serializeField_nlFree _ _ (serializeStr_nlFree _)
        · exact serializeField_nlFree _ _ (serializeStr_nlFree _)
        · exact serializeField_nlFree _ _ (serializeStr_nlFree _)
        · exact serializeField_nlFree _ _ (serializeStr_nlFree _)
        · exact serializeField_nlFree _ _ (serializeStr_nlFree _)
        · exact serializeField_nlFree _ _ (serializeStatus_nlFree _)
        · exact serializeField_nlFree _ _ (renderInt_nlFree _)
        · exact serializeField_nlFree _ _ (renderInt_nlFree _)
        · exact serializeField_nlFree _ _ (serializeHeaders_nlFree _)
        · exact serializeField_nlFree _ _ (serializeStr_nlFree _)
        · exact serializeField_nlFree _ _ (serializeHeaders_nlFree _)
        · exact serializeField_nlFree _ _ (serializeStr_nlFree _)
        · exact absurd hx (List.not_mem_nil x)
      · cases hm : l.errMsg with
        | some e =>
          rw [hm] at hx
          have hx2 : x ∈ [serializeField "error" (serializeStr e)] := hx
          rw [List.mem_singleton] at hx2
          subst hx2
          exact serializeField_nlFree _ _ (serializeStr_nlFree _)
        | none =>
          rw [hm] at hx
          exact absurd hx (List.not_mem_nil x)
    · cases hm : l.timing with
      | some t =>
        rw [hm] at hx
        have hx2 : x ∈ [serializeField "timing" (serializeTiming t)] := hx
        rw [List.mem_singleton] at hx2
        subst hx2
        exact serializeField_nlFree _ _ (serializeTiming_nlFree _)
      | none =>
        rw [hm] at hx
        exact absurd hx (List.not_mem_nil x)
  · cases hm : l.size with
    | some sz =>
      rw [hm] at hx
      have hx2 : x ∈ [serializeField "size" (serializeSize sz)] := hx
      rw [List.mem_singleton] at hx2
      subst hx2
      exact serializeField_nlFree _ _ (serializeSize_nlFree _)
    | none =>
      rw [hm] at hx
      exact absurd hx (List.not_mem_nil x)

theorem serializeLogs_nlFree (ls : List RequestLog) : NlFree (serializeLogs ls) := by
  unfold serializeLogs
  refine nlFree_cons (by decide) (nlFree_append ?_ (nlFree_singleton (by decide)))
  apply sepComma_nlFree
  intro x hx
  rw [List.mem_map] at hx
  obtain ⟨l, _, rfl⟩ := hx
  exact serializeLog_nlFree l

theorem serializeMessage_nlFree (m : ServerMessage) : NlFree (serializeMessage m) := by
  cases m with
  | init ls =>
    apply serializeObjFields_nlFree
    intro x hx
    simp only [List.mem_cons] at hx
    rcases hx with rfl | rfl | hx
    · exact serializeField_nlFree _ _ (serializeStr_nlFree _)
    · exact serializeField_nlFree _ _ (serializeLogs_nlFree _)
    · simp at hx
  | update ls =>
    apply serializeObjFields_nlFree
    intro x hx
    simp only [List.mem_cons] at hx
    rcases hx with rfl | rfl | hx
    · exact serializeField_nlFree _ _ (serializeStr_nlFree _)
    · exact serializeField_nlFree _ _ (serializeLogs_nlFree _)
    · simp at hx

theorem splitNl_append_of_nlFree (p rest : List Char) (hp : NlFree p) :
    splitNl (p ++ '\n' :: rest) = p :: splitNl rest := by
  induction p with
  | nil => rw [List.nil_append, splitNl, if_pos rfl]
  | cons c p ih =>
    have hc : ¬ c = '\n' := fun h => hp (List.mem_cons.mpr (Or.inl h.symm))
    have hp2 : NlFree p := fun hm => hp (List.mem_cons_of_mem _ hm)
    rw [List.cons_append, splitNl, if_neg hc, ih hp2]

theorem encodeMessage_flatten_split (ms : List ServerMessage) :
    splitNl ((ms.map encodeMessage).flatten) = ms.map serializeMessage ++ [[]] := by
  induction ms with
  | nil => rfl
  | cons m ms ih =>
    rw [List.map_cons, List.flatten_cons, encodeMessage, List.append_assoc,
      List.singleton_append,
      splitNl_append_of_nlFree _ _ (serializeMessage_nlFree m), ih, List.map_cons,
      List.cons_append]

theorem viewerFrames_connected (v : Nat) (tr : List ServerEv)
    (hv : v ∉ connectsOf tr) :
    viewerFrames v tr true
      = (notifySnapshots tr).map (fun logs => encodeMessage (.update logs)) := by
  induction tr with
  | nil => rfl
  | cons e tr ih =>
    cases e with
    | connect w snap =>
      have hw : ¬ w = v := fun h => hv (List.mem_cons.mpr (Or.inl h.symm))
      rw [viewerFrames, if_neg hw]
      exact ih (fun hm => hv (List.mem_cons_of_mem _ hm))
    | notify logs =>
      show encodeMessage (.update logs) :: viewerFrames v tr true
        = encodeMessage (.update logs)
            :: (notifySnapshots tr).map (fun logs => encodeMessage (.update logs))
      rw [ih hv]

theorem viewerFrames_session (v : Nat) (pre post : List ServerEv)
    (snap : List RequestLog)
    (hpre : v ∉ connectsOf pre) (hpost : v ∉ connectsOf post) :
    viewerFrames v (pre ++ .connect v snap :: post) false
      = encodeMessage (.init snap)
          :: (notifySnapshots post).map (fun logs => encodeMessage (.update logs)) := by
  induction pre with
  | nil =>
    rw [List.nil_append, viewerFrames, if_pos rfl,
      viewerFrames_connected v post hpost]
  | cons e pre ih =>
    cases e with
    | connect w snap2 =>
      have hw : ¬ w = v := fun h => hpre (List.mem_cons.mpr (Or.inl h.symm))
      rw [List.cons_append, viewerFrames, if_neg hw]
      exact ih (fun hm => hpre (List.mem_cons_of_mem _ hm))
    | notify logs =>
      rw [List.cons_append]
      show [] ++ viewerFrames v (pre ++ ServerEv.connect v snap :: post) false
        = _
      rw [List.nil_append]
      exact ih hpre

/-- C7 (confirmed): for every viewer connection the server sends exactly
one `init` frame carrying the store snapshot read at connection time, then
one `update` frame carrying the full snapshot for each subsequent store
notification while connected; each frame is the serialized JSON message
followed by one newline, the JSON text itself contains no newline, and
splitting the concatenated stream at newlines recovers every serialized
message intact — so the frames are newline-delimited and independently
parseable. -/
theorem ipc_init_then_updates :
    (∀ (v : Nat) (pre post : List ServerEv) (snap : List RequestLog),
      v ∉ connectsOf pre → v ∉ connectsOf post →
      viewerFrames v (pre ++ .connect v snap :: post) false
        = encodeMessage (.init snap)
            :: (notifySnapshots post).map (fun logs => encodeMessage (.update logs)))
    ∧ (∀ m : ServerMessage,
        encodeMessage m = serializeMessage m ++ ['\n']
          ∧ NlFree (serializeMessage m))
    ∧ (∀ ms : List ServerMessage,
        splitNl ((ms.map encodeMessage).flatten)
          = ms.map serializeMessage ++ [[]]) :=
  ⟨fun v pre post snap hpre hpost =>
      viewerFrames_session v pre post snap hpre hpost,
    fun m => ⟨rfl, serializeMessage_nlFree m⟩,
    encodeMessage_flatten_split⟩

theorem ipc_init_then_updates_witness :
    viewerFrames 7
        ([ServerEv.notify [], ServerEv.connect 3 []]
          ++ ServerEv.connect 7 [] :: [ServerEv.notify []]) false
      = encodeMessage (.init [])
          :: (notifySnapshots [ServerEv.notify []]).map
              (fun logs => encodeMessage (.update logs)) :=
  ipc_init_then_updates.1 7 [ServerEv.notify [], ServerEv.connect 3 []]
    [ServerEv.notify []] [] (by decide) (by decide)
